import Mathlib

/-!
Verification of the substitution-model engine of `cogent/evolve/substitution_model.py`.

A motif is a fixed-length word over characters (e.g. a nucleotide `['a']` or a
codon `['a','t','g']`).  Matrices over the alphabet are embedded as functions
`Nat → Nat → _`, always used on indices below the alphabet size `M`.
Floating point numbers are embedded as rationals, so numerically exact facts
(row sums, rank) hold exactly.  The float singular-value decomposition used by
`redundancyInPredicateMasks`, with its `1e-8` threshold for treating singular
values as zero, is embedded by the exact matrix rank of the integer 0/1
rows, computed by fraction-free Gaussian elimination: in exact arithmetic
the number of nonzero singular values of a matrix equals its rank.
-/

abbrev Motif := List Char

/-- Leading nonzero entry of a row: its index and value. -/
def findPivot : List ℤ → Option (Nat × ℤ)
  | [] => none
  | a :: r => if a ≠ 0 then some (0, a) else (findPivot r).map (fun p => (p.1 + 1, p.2))

/-- One fraction-free row operation: replace `row` by `p * row - c * r`
(entrywise over the common length). -/
def rowOp (p c : ℤ) (r row : List ℤ) : List ℤ :=
  List.zipWith (fun a b => p * b - c * a) r row

/-- Eliminate column `j` (pivot value `p`, pivot row `r`) from every row. -/
def elimWith (r : List ℤ) (j : Nat) (p : ℤ) (rows : List (List ℤ)) : List (List ℤ) :=
  rows.map (fun row => rowOp p (row.getD j 0) r row)

/-- Gaussian-elimination rank with explicit fuel (structural recursion). -/
def rankFuel : Nat → List (List ℤ) → Nat
  | 0, _ => 0
  | _, [] => 0
  | n + 1, r :: rs =>
    match findPivot r with
    | none => rankFuel n rs
    | some jp => rankFuel n (elimWith r jp.1 jp.2 rs) + 1

/-- Rank of a list of row vectors over `ℤ`. -/
def qrank (rows : List (List ℤ)) : Nat := rankFuel rows.length rows

/-- A boolean mask flattened to a 0/1 row vector of length `M * M`
(the `list(mask.flat)` of the source). -/
def maskRow (M : Nat) (mask : Nat → Nat → Bool) : List ℤ :=
  (List.range M).flatMap (fun i => (List.range M).map (fun j => if mask i j then (1 : ℤ) else 0))

/-- Embedding of `redundancyInPredicateMasks`: number of masks minus the rank
of the masks stacked as flattened row vectors; `0` for no masks. -/
def redundancyInPredicateMasks (M : Nat) (masks : List (Nat → Nat → Bool)) : Nat :=
  match masks with
  | [] => 0
  | _ => masks.length - qrank (masks.map (maskRow M))

/-- Embedding of `predicate2matrix`: evaluate a motif-pair test over every
ordered pair of alphabet motifs, defaulting to false outside the restricting
mask when one is given. -/
def predicate2matrix (alphabet : List Motif) (pred : Motif → Motif → Bool)
    (mask : Option (Nat → Nat → Bool)) : Nat → Nat → Bool :=
  fun i j =>
    (match mask with
     | none => true
     | some mk => mk i j)
    && pred (alphabet.getD i []) (alphabet.getD j [])

/-- Truth of `numpy.alltrue((matrix == 0).flat)` over the `M × M` window. -/
def allFalseMask (M : Nat) (m : Nat → Nat → Bool) : Bool :=
  (List.range M).all (fun i => (List.range M).all (fun j => !(m i j)))

/-- Truth of `numpy.alltrue((matrix == instantaneous_mask).flat)` over the window. -/
def masksEqual (M : Nat) (a b : Nat → Nat → Bool) : Bool :=
  (List.range M).all (fun i => (List.range M).all (fun j => a i j == b i j))

/-- Embedding of `SubstitutionModel.checkPredicateMasks`: reject always-false predicates;
with scaling also reject always-true predicates, redundancy among the masks,
and redundancy of the masks with the instantaneous mask appended; without
scaling, reject redundancy among the masks and only warn on the combined
check.  Raising is embedded as `Except.error` with the source message. -/
def checkPredicateMasks (M : Nat) (do_scaling : Bool) (inst : Nat → Nat → Bool)
    (preds : List (String × (Nat → Nat → Bool))) : Except String Unit :=
  match preds.find? (fun p => allFalseMask M p.2) with
  | some p => Except.error ("Predicate " ++ p.1 ++ " is always false.")
  | none =>
    if do_scaling then
      match preds.find? (fun p => masksEqual M p.2 inst) with
      | some p => Except.error ("Predicate " ++ p.1 ++ " is always true.")
      | none =>
        if 0 < redundancyInPredicateMasks M (preds.map Prod.snd) then
          Except.error "Redundancy in predicates."
        else if 0 < redundancyInPredicateMasks M (preds.map Prod.snd ++ [inst]) then
          Except.error "Some combination of predicates is equivalent to the overall rate parameter."
        else Except.ok ()
    else
      if 0 < redundancyInPredicateMasks M (preds.map Prod.snd) then
        Except.error "Redundancy in predicates."
      else Except.ok ()

/-- Embedding of `SubstitutionModel.calcRateMatrix`: start from the instantaneous mask as a
numeric matrix; for each predicate in declared order, multiply the entries
selected by its mask by the corresponding parameter (the `numpy.put` of the
parameter into a work matrix of ones followed by `F *= work`). -/
def calcRateMatrix (instf : Nat → Nat → ℚ) (masks : List (Nat → Nat → Bool))
    (params : List ℚ) : Nat → Nat → ℚ :=
  (masks.zip params).foldl
    (fun F mp => fun i j => F i j * (if mp.1 i j then mp.2 else 1)) instf

/-- Modelled from the spec: the `RateMatrix`/`ScaledRateMatrix` classes of
`cogent.evolve.substitution_calculation` are not part of the sources; per the
spec, off-diagonal entries are the accumulated matrix and each diagonal entry
is set to the negative of the off-diagonal row sum. -/
def rateMatrixWithDiagonal (M : Nat) (F : Nat → Nat → ℚ) : Nat → Nat → ℚ :=
  fun i j => if i = j then -(∑ k in (Finset.range M).erase i, F i k) else F i j

/-- Whether an `Except` result is a success (no exception raised). -/
def exOk {ε α : Type} : Except ε α → Bool
  | Except.ok _ => true
  | Except.error _ => false

/-- Number of positions at which two motifs differ
(`sum([X!=Y for (X,Y) in zip(x,y)])`). -/
def diffsCount (x y : Motif) : Nat := (x.zip y).countP (fun p => p.1 != p.2)

/-- Embedding of the `[X,Y].index(G)` of the source: 0 when `X` is the gap character, else 1.
Only reached on pairs where one of the two characters is the gap. -/
def gapIndex (G X : Char) : Nat := if X = G then 0 else 1

/-- The loop of `SubstitutionModel._isAnyIndel`, over the zipped motif pair
with running position `i` and state `(gap_start, gap_end, gap_strand)`. -/
def indelLoop (gm : Motif) :
    List (Char × Char) → Nat → Option Nat → Option Nat → Option Nat → Bool
  | [], _, _, _, _ => true
  | (X, Y) :: rest, i, gapStart, gapEnd, gapStrand =>
    if X = Y then
      match gapStart with
      | none => indelLoop gm rest (i + 1) gapStart gapEnd gapStrand
      | some _ => indelLoop gm rest (i + 1) gapStart (some i) gapStrand
    else
      if X ≠ gm.getD i ' ' ∧ Y ≠ gm.getD i ' ' then false
      else
        match gapStart with
        | none =>
          indelLoop gm rest (i + 1) (some i) gapEnd (some (gapIndex (gm.getD i ' ') X))
        | some _ =>
          if gapEnd.isSome ∨ some (gapIndex (gm.getD i ' ') X) ≠ gapStrand then false
          else indelLoop gm rest (i + 1) gapStart gapEnd gapStrand

/-- Embedding of `SubstitutionModel._isAnyIndel`: an indel of any length. -/
def isAnyIndel (gm x y : Motif) : Bool :=
  if x = y then false else indelLoop gm (x.zip y) 0 none none none

/-- Embedding of `SubstitutionModel._isInstantaneous` (default rule). -/
def isInstantaneous (gm : Motif) (longIndels : Bool) (x y : Motif) : Bool :=
  diffsCount x y == 1 ||
    (decide (1 < diffsCount x y) && longIndels && isAnyIndel gm x y)

/-- The gap of a differing pair sits on strand `str`: strand 0 means the
first motif holds the gap character, strand 1 the second. -/
def sideOK (G X Y : Char) (str : Nat) : Prop :=
  (str = 0 ∧ X = G) ∨ (str = 1 ∧ X ≠ G ∧ Y = G)

/-- Specification of a single contiguous gap region confined to one strand:
some strand `str` and window `[a, a + n)` such that the differing positions
of the zipped pair are exactly the window, and at every differing position
the gap character (of the gap motif at that position, offset by `i0`) lies
on strand `str`. -/
def RunSpec (gm : Motif) (i0 : Nat) (ps : List (Char × Char)) : Prop :=
  ∃ str a n, a + n ≤ ps.length ∧
    (∀ j p, ps[j]? = some p → (p.1 ≠ p.2 ↔ (a ≤ j ∧ j < a + n))) ∧
    (∀ j p, ps[j]? = some p → a ≤ j → j < a + n →
      sideOK (gm.getD (i0 + j) ' ') p.1 p.2 str)

/-- The compiled form of a substitution model needed by the claims: alphabet
size, instantaneous mask, named predicate masks in declared order, and the
partitioned parameter names. -/
structure SubstModel where
  M : Nat
  inst : Nat → Nat → Bool
  preds : List (String × (Nat → Nat → Bool))
  partitioned : List String

/-- Embedding of `SubstitutionModel.adaptPredicate` with an explicit label: compile the
predicate to a mask intersected with the instantaneous mask. -/
def adaptPredicate (alphabet : List Motif) (inst : Nat → Nat → Bool)
    (pred : Motif → Motif → Bool) (label : String) : String × (Nat → Nat → Bool) :=
  (label, predicate2matrix alphabet pred (some inst))

/-- Embedding of `SubstitutionModel._adaptPredicates`: compile each named rule, raising on
a duplicate predicate name. -/
def adaptPredicates (alphabet : List Motif) (inst : Nat → Nat → Bool) :
    List (String × (Motif → Motif → Bool)) →
      Except String (List (String × (Nat → Nat → Bool)))
  | [] => Except.ok []
  | (label, pred) :: rest =>
    match adaptPredicates alphabet inst rest with
    | Except.error e => Except.error e
    | Except.ok tail =>
      if tail.any (fun q => q.1 == label) then
        Except.error ("Duplicate predicate name " ++ label)
      else Except.ok (adaptPredicate alphabet inst pred label :: tail)

/-- The BINS block of `SubstitutionModel.__init__` (inputs normalised to
lists): with an ordered parameter the partitioned parameters become the
union; without one, any partitioned parameter is a configuration error. -/
def binsPartition (ordered partitioned : List String) : Except String (List String) :=
  match ordered with
  | [] =>
    match partitioned with
    | [] => Except.ok []
    | _ => Except.error "you must specify an ordered_param for a binned model"
  | _ => Except.ok (ordered ++ partitioned.filter (fun p => !(ordered.contains p)))

/-- Constructor arguments of `SubstitutionModel.__init__` relevant to the
claims (predicate path, no empirical rate matrix). -/
structure ModelSpec where
  alphabet : List Motif
  isInst : Motif → Motif → Bool
  predicates : List (String × (Motif → Motif → Bool))
  do_scaling : Bool
  ordered_param : List String
  partitioned_params : List String

/-- The construction pipeline of `SubstitutionModel.__init__`: compile the
instantaneous mask, adapt the predicates, validate them, process the bin
arguments; any raise aborts construction with no model produced. -/
def mkModel (ms : ModelSpec) : Except String SubstModel :=
  let Mn := ms.alphabet.length
  let inst := predicate2matrix ms.alphabet ms.isInst none
  match adaptPredicates ms.alphabet inst ms.predicates with
  | Except.error e => Except.error e
  | Except.ok preds =>
    match checkPredicateMasks Mn ms.do_scaling inst preds with
    | Except.error e => Except.error e
    | Except.ok _ =>
      match binsPartition ms.ordered_param ms.partitioned_params with
      | Except.error e => Except.error e
      | Except.ok part =>
        if !part.isEmpty && !(("rate" :: preds.map Prod.fst).any (fun r => part.contains r)) then
          Except.error "partitioned_params must overlap the rate parameters"
        else Except.ok (SubstModel.mk Mn inst preds part)

/-- Embedding of `SubstitutionModel.getMatrixParams`: cell (i,j) holds the sorted names of
the predicates whose masks fire there; cells outside the instantaneous mask
are left as empty lists. -/
def getMatrixParams (m : SubstModel) : Nat → Nat → List String :=
  fun i j =>
    if m.inst i j then
      List.insertionSort (fun a b : String => a ≤ b)
        ((m.preds.filter (fun p => p.2 i j)).map Prod.fst)
    else []

/-- A store of motif-probability dictionaries, embedding the Python heap:
a model holds a reference (index) to its stored dictionary. -/
structure Store where
  dicts : List (List (Motif × ℚ))

def Store.read (h : Store) (r : Nat) : List (Motif × ℚ) := h.dicts.getD r []

def Store.write (h : Store) (r : Nat) (d : List (Motif × ℚ)) : Store :=
  Store.mk (h.dicts.set r d)

def Store.alloc (h : Store) (d : List (Motif × ℚ)) : Nat × Store :=
  (h.dicts.length, Store.mk (h.dicts ++ [d]))

/-- Embedding of `SubstitutionModel.getMotifProbs`: `return self.motif_probs.copy()` —
allocate a fresh dictionary holding a copy of the stored contents. -/
def getMotifProbs (h : Store) (motif_probs : Nat) : Nat × Store :=
  h.alloc (h.read motif_probs)

theorem calcRateMatrix_foldl (l : List ((Nat → Nat → Bool) × ℚ))
    (F : Nat → Nat → ℚ) (i j : Nat) :
    l.foldl (fun F mp => fun i j => F i j * (if mp.1 i j then mp.2 else 1)) F i j
      = F i j * ((l.filter (fun mp => mp.1 i j)).map Prod.snd).prod := by
  induction l generalizing F with
  | nil => simp
  | cons a l ih =>
    simp only [List.foldl_cons]
    rw [ih]
    by_cases h : a.1 i j = true
    · simp [List.filter_cons, h, mul_assoc]
    · simp [List.filter_cons, h]

/-- Claim C1: for every model and every parameter vector whose length equals
the number of declared predicates, the entry (i,j) of the matrix accumulated
by `calcRateMatrix` equals the instantaneous-mask value at (i,j) times the
product, in declared order, of the parameters of exactly those predicates
whose mask is true at (i,j); entries governed by no predicate keep the bare
instantaneous value. -/
theorem C1_calcRateMatrix_entries (instf : Nat → Nat → ℚ)
    (masks : List (Nat → Nat → Bool)) (params : List ℚ)
    (hlen : params.length = masks.length) (i j : Nat) :
    calcRateMatrix instf masks params i j =
      instf i j * (((masks.zip params).filter (fun mp => mp.1 i j)).map Prod.snd).prod
    ∧ ((∀ mk ∈ masks, mk i j = false) →
        calcRateMatrix instf masks params i j = instf i j) := by
  constructor
  · exact calcRateMatrix_foldl (masks.zip params) instf i j
  · intro hall
    have hfil : (masks.zip params).filter (fun mp => mp.1 i j) = [] := by
      rw [List.filter_eq_nil_iff]
      intro mp hmp
      have hm : mp.1 ∈ masks := (List.of_mem_zip hmp).1
      simp [hall mp.1 hm]
    have h := calcRateMatrix_foldl (masks.zip params) instf i j
    rw [hfil] at h
    simp only [List.map_nil, List.prod_nil, mul_one] at h
    exact h

def wInstf : Nat → Nat → ℚ := fun i j => if i = 0 ∧ j = 1 then 1 else 0

def wMask : Nat → Nat → Bool := fun i j => i == 0 && j == 1

/-- Witness for C1 at a concrete 2-state model with one predicate. -/
theorem C1_calcRateMatrix_entries_witness :
    calcRateMatrix wInstf [wMask] [(3 : ℚ)] 0 1 =
      wInstf 0 1 * ((([wMask].zip [(3 : ℚ)]).filter (fun mp => mp.1 0 1)).map Prod.snd).prod
    ∧ ((∀ mk ∈ [wMask], mk 0 1 = false) →
        calcRateMatrix wInstf [wMask] [(3 : ℚ)] 0 1 = wInstf 0 1) :=
  C1_calcRateMatrix_entries wInstf [wMask] [(3 : ℚ)] rfl 0 1

/-- Claim C2: for every model and parameter vector of the declared length,
the rate matrix (off-diagonal part accumulated by `calcRateMatrix`, diagonal
set per the spec since the wrapping rate-matrix class is outside the given
sources) has every row summing to zero exactly — hence within any floating
tolerance — the diagonal entry being the negative off-diagonal row sum. -/
theorem C2_rateMatrix_row_sums (M : Nat) (instf : Nat → Nat → ℚ)
    (masks : List (Nat → Nat → Bool)) (params : List ℚ)
    (hlen : params.length = masks.length) (i : Nat) (hi : i < M) :
    (∑ j in Finset.range M,
        rateMatrixWithDiagonal M (calcRateMatrix instf masks params) i j) = 0
    ∧ rateMatrixWithDiagonal M (calcRateMatrix instf masks params) i i
        = -(∑ k in (Finset.range M).erase i, calcRateMatrix instf masks params i k) := by
  have hdiag : rateMatrixWithDiagonal M (calcRateMatrix instf masks params) i i
      = -(∑ k in (Finset.range M).erase i, calcRateMatrix instf masks params i k) := by
    simp [rateMatrixWithDiagonal]
  refine ⟨?_, hdiag⟩
  have hmem : i ∈ Finset.range M := Finset.mem_range.mpr hi
  rw [← Finset.sum_erase_add _ _ hmem]
  have hoff : ∑ j in (Finset.range M).erase i,
      rateMatrixWithDiagonal M (calcRateMatrix instf masks params) i j
      = ∑ j in (Finset.range M).erase i, calcRateMatrix instf masks params i j := by
    refine Finset.sum_congr rfl (fun j hj => ?_)
    have hne : i ≠ j := Ne.symm (Finset.ne_of_mem_erase hj)
    simp [rateMatrixWithDiagonal, hne]
  rw [hoff, hdiag]
  ring

/-- Witness for C2 at a concrete 2-state model with one predicate. -/
theorem C2_rateMatrix_row_sums_witness :
    (∑ j in Finset.range 2,
        rateMatrixWithDiagonal 2 (calcRateMatrix wInstf [wMask] [(3 : ℚ)]) 0 j) = 0
    ∧ rateMatrixWithDiagonal 2 (calcRateMatrix wInstf [wMask] [(3 : ℚ)]) 0 0
        = -(∑ k in (Finset.range 2).erase 0, calcRateMatrix wInstf [wMask] [(3 : ℚ)] 0 k) :=
  C2_rateMatrix_row_sums 2 wInstf [wMask] [(3 : ℚ)] rfl 0 (by decide)

theorem findPivot_eq_none (r : List ℤ) : findPivot r = none ↔ ∀ x ∈ r, x = 0 := by
  induction r with
  | nil => simp [findPivot]
  | cons a r ih =>
    by_cases h : a = 0
    · subst h
      simp [findPivot, Option.map_eq_none', ih]
    · simp [findPivot, h]

theorem findPivot_some (r : List ℤ) (j : Nat) (p : ℤ) (h : findPivot r = some (j, p)) :
    r.getD j 0 = p ∧ p ≠ 0 := by
  induction r generalizing j p with
  | nil => simp [findPivot] at h
  | cons a r ih =>
    by_cases ha : a = 0
    · subst ha
      have h2 : (findPivot r).map (fun q => (q.1 + 1, q.2)) = some (j, p) := by
        rw [← h]; simp [findPivot]
      rw [Option.map_eq_some'] at h2
      obtain ⟨q, hq, hfq⟩ := h2
      injection hfq with hj hp
      subst hj; subst hp
      simpa using ih q.1 q.2 hq
    · have h2 : some ((0 : Nat), a) = some (j, p) := by
        rw [← h]; simp [findPivot, ha]
      injection h2 with h3
      injection h3 with hj hp
      subst hj; subst hp
      exact ⟨rfl, ha⟩

theorem zeroRow_getD (z : List ℤ) (j : Nat) (hz : ∀ x ∈ z, x = 0) : z.getD j 0 = 0 := by
  induction z generalizing j with
  | nil => simp
  | cons a z ih =>
    cases j with
    | zero => simpa using hz a (List.mem_cons_self a z)
    | succ j => simpa using ih j (fun x hx => hz x (List.mem_cons_of_mem a hx))

theorem rowOp_zero (p : ℤ) (r z : List ℤ) (hz : ∀ x ∈ z, x = 0) :
    ∀ x ∈ rowOp p 0 r z, x = 0 := by
  induction r generalizing z with
  | nil => simp [rowOp]
  | cons a r ih =>
    cases z with
    | nil => simp [rowOp]
    | cons b z =>
      intro x hx
      rw [rowOp, List.zipWith_cons_cons] at hx
      rcases List.mem_cons.mp hx with h | h
      · have hb : b = 0 := hz b (List.mem_cons_self b z)
        rw [h, hb]; ring
      · exact ih z (fun x hx => hz x (List.mem_cons_of_mem b hx)) x h

theorem rowOp_self (p : ℤ) (r : List ℤ) : ∀ x ∈ rowOp p p r r, x = 0 := by
  induction r with
  | nil => simp [rowOp]
  | cons a r ih =>
    intro x hx
    rw [rowOp, List.zipWith_cons_cons] at hx
    rcases List.mem_cons.mp hx with h | h
    · rw [h]; ring
    · exact ih x h

theorem elimWith_length (r : List ℤ) (j : Nat) (p : ℤ) (rows : List (List ℤ)) :
    (elimWith r j p rows).length = rows.length := by
  simp [elimWith]

theorem elimWith_zero_mem (r : List ℤ) (j : Nat) (p : ℤ) (rows : List (List ℤ))
    (z : List ℤ) (hmem : z ∈ rows) (hz : ∀ x ∈ z, x = 0) :
    ∃ z2 ∈ elimWith r j p rows, ∀ x ∈ z2, x = 0 := by
  refine ⟨rowOp p (z.getD j 0) r z, List.mem_map_of_mem _ hmem, ?_⟩
  rw [zeroRow_getD z j hz]
  exact rowOp_zero p r z hz

theorem rankFuel_le (n : Nat) (rows : List (List ℤ)) : rankFuel n rows ≤ rows.length := by
  induction n generalizing rows with
  | zero => simp [rankFuel]
  | succ n ih =>
    cases rows with
    | nil => simp [rankFuel]
    | cons r rs =>
      cases hp : findPivot r with
      | none =>
        simp only [rankFuel, hp]
        exact le_trans (ih rs) (by simp)
      | some jp =>
        simp only [rankFuel, hp, List.length_cons]
        have := ih (elimWith r jp.1 jp.2 rs)
        rw [elimWith_length] at this
        omega

theorem rankFuel_lt_of_zero (n : Nat) (rows : List (List ℤ)) (hn : rows.length ≤ n)
    (hz : ∃ z ∈ rows, ∀ x ∈ z, x = 0) : rankFuel n rows < rows.length := by
  induction n generalizing rows with
  | zero =>
    obtain ⟨z, hmem, _⟩ := hz
    have : rows = [] := List.eq_nil_of_length_eq_zero (Nat.le_zero.mp hn)
    subst this; simp at hmem
  | succ n ih =>
    obtain ⟨z, hmem, hzero⟩ := hz
    cases rows with
    | nil => simp at hmem
    | cons r rs =>
      cases hp : findPivot r with
      | none =>
        simp only [rankFuel, hp, List.length_cons]
        exact Nat.lt_succ_of_le (rankFuel_le n rs)
      | some jp =>
        simp only [rankFuel, hp, List.length_cons]
        rcases List.mem_cons.mp hmem with h | h
        · exfalso
          subst h
          rw [(findPivot_eq_none z).mpr hzero] at hp
          exact Option.noConfusion hp
        · obtain ⟨z2, hmem2, hz2⟩ := elimWith_zero_mem r jp.1 jp.2 rs z h hzero
          have hlt := ih (elimWith r jp.1 jp.2 rs)
            (by rw [elimWith_length]; exact Nat.lt_succ_iff.mp (Nat.lt_succ_of_le
              (by simpa using hn))) ⟨z2, hmem2, hz2⟩
          rw [elimWith_length] at hlt
          omega

theorem rankFuel_lt_of_dup (n : Nat) (rows : List (List ℤ)) (hn : rows.length ≤ n)
    (hd : ∃ l1 z l2 l3, rows = l1 ++ z :: (l2 ++ z :: l3)) :
    rankFuel n rows < rows.length := by
  induction n generalizing rows with
  | zero =>
    obtain ⟨l1, z, l2, l3, hrows⟩ := hd
    subst hrows
    simp at hn
  | succ n ih =>
    obtain ⟨l1, z, l2, l3, hrows⟩ := hd
    cases l1 with
    | nil =>
      simp only [List.nil_append] at hrows
      subst hrows
      cases hp : findPivot z with
      | none =>
        simp only [rankFuel, hp, List.length_cons]
        exact Nat.lt_succ_of_le (rankFuel_le n _)
      | some jp =>
        simp only [rankFuel, hp, List.length_cons]
        have hzmem : z ∈ l2 ++ z :: l3 := by simp
        obtain ⟨hget, hpne⟩ := findPivot_some z jp.1 jp.2 hp
        have himg : ∀ x ∈ rowOp jp.2 (z.getD jp.1 0) z z, x = 0 := by
          rw [hget]
          exact rowOp_self jp.2 z
        have hz2 : ∃ z2 ∈ elimWith z jp.1 jp.2 (l2 ++ z :: l3), ∀ x ∈ z2, x = 0 :=
          ⟨rowOp jp.2 (z.getD jp.1 0) z z, List.mem_map_of_mem _ hzmem, himg⟩
        have hlt := rankFuel_lt_of_zero n (elimWith z jp.1 jp.2 (l2 ++ z :: l3))
          (by rw [elimWith_length]; simpa using hn) hz2
        rw [elimWith_length] at hlt
        omega
    | cons w l1 =>
      simp only [List.cons_append] at hrows
      subst hrows
      cases hp : findPivot w with
      | none =>
        simp only [rankFuel, hp, List.length_cons]
        exact Nat.lt_succ_of_le (rankFuel_le n _)
      | some jp =>
        simp only [rankFuel, hp, List.length_cons]
        have hdup2 : ∃ a b c d,
            elimWith w jp.1 jp.2 (l1 ++ z :: (l2 ++ z :: l3)) = a ++ b :: (c ++ b :: d) := by
          refine ⟨(l1.map (fun row => rowOp jp.2 (row.getD jp.1 0) w row)),
            rowOp jp.2 (z.getD jp.1 0) w z,
            (l2.map (fun row => rowOp jp.2 (row.getD jp.1 0) w row)),
            (l3.map (fun row => rowOp jp.2 (row.getD jp.1 0) w row)), ?_⟩
          simp [elimWith]
        have hlt := ih (elimWith w jp.1 jp.2 (l1 ++ z :: (l2 ++ z :: l3)))
          (by rw [elimWith_length]; simpa using hn) hdup2
        rw [elimWith_length] at hlt
        omega

theorem qrank_le (rows : List (List ℤ)) : qrank rows ≤ rows.length :=
  rankFuel_le rows.length rows

theorem qrank_lt_of_zero (rows : List (List ℤ)) (hz : ∃ z ∈ rows, ∀ x ∈ z, x = 0) :
    qrank rows < rows.length :=
  rankFuel_lt_of_zero rows.length rows le_rfl hz

theorem qrank_lt_of_dup (rows : List (List ℤ))
    (hd : ∃ l1 z l2 l3, rows = l1 ++ z :: (l2 ++ z :: l3)) :
    qrank rows < rows.length :=
  rankFuel_lt_of_dup rows.length rows le_rfl hd

theorem redundancy_eq (M : Nat) (masks : List (Nat → Nat → Bool)) :
    redundancyInPredicateMasks M masks
      = masks.length - qrank (masks.map (maskRow M)) := by
  cases masks <;> rfl

theorem allFalse_maskRow_zero (M : Nat) (m : Nat → Nat → Bool)
    (h : allFalseMask M m = true) : ∀ x ∈ maskRow M m, x = 0 := by
  intro x hx
  rw [maskRow, List.mem_flatMap] at hx
  obtain ⟨i, hi, hx⟩ := hx
  rw [List.mem_map] at hx
  obtain ⟨j, hj, hx⟩ := hx
  rw [allFalseMask, List.all_eq_true] at h
  have h2 := h i hi
  rw [List.all_eq_true] at h2
  have hmij := h2 j hj
  simp only [Bool.not_eq_eq_eq_not, Bool.not_true] at hmij
  rw [← hx, hmij]
  simp

theorem redundancy_zero_no_false (M : Nat) (masks : List (Nat → Nat → Bool))
    (h : redundancyInPredicateMasks M masks = 0) (m : Nat → Nat → Bool)
    (hm : m ∈ masks) : allFalseMask M m = false := by
  by_contra hc
  rw [Bool.not_eq_false] at hc
  have hzero := allFalse_maskRow_zero M m hc
  have hlt := qrank_lt_of_zero (masks.map (maskRow M))
    ⟨maskRow M m, List.mem_map_of_mem _ hm, hzero⟩
  rw [List.length_map] at hlt
  rw [redundancy_eq] at h
  omega

theorem redundancy_pos_of_dup (M : Nat) (l1 l2 l3 : List (Nat → Nat → Bool))
    (mk : Nat → Nat → Bool) :
    0 < redundancyInPredicateMasks M (l1 ++ mk :: (l2 ++ mk :: l3)) := by
  rw [redundancy_eq]
  have hd : ∃ a b c d,
      ((l1 ++ mk :: (l2 ++ mk :: l3)).map (maskRow M)) = a ++ b :: (c ++ b :: d) :=
    ⟨l1.map (maskRow M), maskRow M mk, l2.map (maskRow M), l3.map (maskRow M), by simp⟩
  have hlt := qrank_lt_of_dup _ hd
  rw [List.length_map] at hlt
  omega

/-- Claim C3: `redundancyInPredicateMasks` returns zero for an empty mask
set; for any mask set containing two linearly dependent masks — here one
mask equal to another, as in the claim — it returns a positive value, and
`checkPredicateMasks` (run at model construction) raises, whatever the
scaling flag.  The float SVD with its `1e-8` singular-value threshold is
embedded as the exact rank of the stacked 0/1 rows. -/
theorem C3_redundancy (M : Nat) :
    redundancyInPredicateMasks M [] = 0
    ∧ ∀ (ds : Bool) (inst : Nat → Nat → Bool)
        (l1 l2 l3 : List (String × (Nat → Nat → Bool))) (nm1 nm2 : String)
        (mk : Nat → Nat → Bool),
        0 < redundancyInPredicateMasks M
            ((l1 ++ (nm1, mk) :: (l2 ++ (nm2, mk) :: l3)).map Prod.snd)
        ∧ exOk (checkPredicateMasks M ds inst
            (l1 ++ (nm1, mk) :: (l2 ++ (nm2, mk) :: l3))) = false := by
  refine ⟨rfl, ?_⟩
  intro ds inst l1 l2 l3 nm1 nm2 mk
  set preds := l1 ++ (nm1, mk) :: (l2 ++ (nm2, mk) :: l3) with hpreds
  have hmap : preds.map Prod.snd
      = (l1.map Prod.snd) ++ mk :: ((l2.map Prod.snd) ++ mk :: (l3.map Prod.snd)) := by
    simp [hpreds]
  have hred : 0 < redundancyInPredicateMasks M (preds.map Prod.snd) := by
    rw [hmap]; exact redundancy_pos_of_dup M _ _ _ mk
  refine ⟨hred, ?_⟩
  cases hf : preds.find? (fun p => allFalseMask M p.2) with
  | some q => simp [checkPredicateMasks, hf, exOk]
  | none =>
    cases ds with
    | false => simp [checkPredicateMasks, hf, hred, exOk]
    | true =>
      cases hg : preds.find? (fun p => masksEqual M p.2 inst) with
      | some q => simp [checkPredicateMasks, hf, hg, exOk]
      | none => simp [checkPredicateMasks, hf, hg, hred, exOk]

def cInst : Nat → Nat → Bool := fun i j => (i == 0 && j == 1) || (i == 1 && j == 0)

def cMask : Nat → Nat → Bool := fun i j => i == 0 && j == 1

/-- Counterexample to Claim C4 as stated: with scaling enabled, a single
predicate whose mask equals the whole instantaneous mask has zero
redundancy, yet `checkPredicateMasks` raises ("always true"), so zero
redundancy does not imply no raise for every model. -/
theorem C4_counterexample :
    redundancyInPredicateMasks 2 ([("p", cInst)].map Prod.snd) = 0
    ∧ checkPredicateMasks 2 true cInst [("p", cInst)]
        = Except.error "Predicate p is always true." := by
  exact ⟨by decide, rfl⟩

/-- Claim C4 (amended): for every predicate mask set whose redundancy as
computed by `redundancyInPredicateMasks` is zero, `checkPredicateMasks`
does not raise when scaling is disabled (an always-false mask would itself
force positive redundancy, so check 1 passes too). -/
theorem C4_zero_redundancy_ok (M : Nat) (inst : Nat → Nat → Bool)
    (preds : List (String × (Nat → Nat → Bool)))
    (h : redundancyInPredicateMasks M (preds.map Prod.snd) = 0) :
    checkPredicateMasks M false inst preds = Except.ok () := by
  have hfind : preds.find? (fun p => allFalseMask M p.2) = none := by
    rw [List.find?_eq_none]
    intro p hp
    have hff := redundancy_zero_no_false M (preds.map Prod.snd) h p.2
      (List.mem_map_of_mem _ hp)
    simp [hff]
  simp [checkPredicateMasks, hfind, h]

/-- Witness for the amended C4 at a concrete independent mask set. -/
theorem C4_zero_redundancy_ok_witness :
    redundancyInPredicateMasks 2 ([("p", cMask)].map Prod.snd) = 0
    ∧ checkPredicateMasks 2 false cInst [("p", cMask)] = Except.ok () :=
  ⟨by decide, C4_zero_redundancy_ok 2 cInst [("p", cMask)] (by decide)⟩

/-- Counterexample to Claim C5 as stated: with scaling disabled, two
predicates with equal nonempty masks — neither always false — still make
`checkPredicateMasks` raise "Redundancy in predicates.": the linear
redundancy check (check 3) is a hard failure even without scaling. -/
theorem C5_counterexample :
    allFalseMask 2 cMask = false
    ∧ checkPredicateMasks 2 false cInst [("a", cMask), ("b", cMask)]
        = Except.error "Redundancy in predicates." := by
  exact ⟨rfl, rfl⟩

/-- Claim C5 (amended): with scaling disabled, `checkPredicateMasks`
succeeds exactly when no predicate mask is always false and the predicate
masks have zero linear redundancy: the always-true check (2) is skipped and
the combined predicates-plus-scale check (4) is only a warning, but the
always-false check (1) and the redundancy check (3) remain hard failures. -/
theorem C5_noscaling_ok_iff (M : Nat) (inst : Nat → Nat → Bool)
    (preds : List (String × (Nat → Nat → Bool))) :
    checkPredicateMasks M false inst preds = Except.ok ()
      ↔ (preds.find? (fun p => allFalseMask M p.2) = none
          ∧ redundancyInPredicateMasks M (preds.map Prod.snd) = 0) := by
  constructor
  · intro h
    cases hf : preds.find? (fun p => allFalseMask M p.2) with
    | some q => simp [checkPredicateMasks, hf] at h
    | none =>
      refine ⟨rfl, ?_⟩
      by_contra hc
      have hpos : 0 < redundancyInPredicateMasks M (preds.map Prod.snd) :=
        Nat.pos_of_ne_zero hc
      simp [checkPredicateMasks, hf, hpos] at h
  · intro hok
    obtain ⟨hf, hr⟩ := hok
    simp [checkPredicateMasks, hf, hr]

theorem adaptPredicates_sub (alph : List Motif) (inst : Nat → Nat → Bool)
    (rules : List (String × (Motif → Motif → Bool)))
    (l : List (String × (Nat → Nat → Bool)))
    (h : adaptPredicates alph inst rules = Except.ok l) :
    ∀ q ∈ l, ∀ i j, q.2 i j = true → inst i j = true := by
  induction rules generalizing l with
  | nil =>
    rw [adaptPredicates] at h
    injection h with h2
    subst h2
    simp
  | cons hd rules ih =>
    obtain ⟨label, pred⟩ := hd
    rw [adaptPredicates] at h
    cases hrec : adaptPredicates alph inst rules with
    | error e => rw [hrec] at h; exact absurd h (by simp)
    | ok tail =>
      rw [hrec] at h
      by_cases hdup : tail.any (fun q => q.1 == label) = true
      · simp only [hdup, if_true] at h
        exact absurd h (by simp)
      · simp only [Bool.not_eq_true] at hdup
        simp only [hdup, Bool.false_eq_true, if_false] at h
        injection h with h2
        subst h2
        intro q hq i j hqij
        rcases List.mem_cons.mp hq with h1 | h1
        · subst h1
          simp only [adaptPredicate, predicate2matrix, Bool.and_eq_true] at hqij
          exact hqij.1
        · exact ih tail hrec q h1 i j hqij

theorem mkModel_ok_inv (ms : ModelSpec) (m : SubstModel)
    (h : mkModel ms = Except.ok m) :
    m.M = ms.alphabet.length
    ∧ m.inst = predicate2matrix ms.alphabet ms.isInst none
    ∧ adaptPredicates ms.alphabet (predicate2matrix ms.alphabet ms.isInst none)
        ms.predicates = Except.ok m.preds := by
  rw [mkModel] at h
  split at h
  · exact absurd h (by simp)
  · rename_i preds hA
    split at h
    · exact absurd h (by simp)
    · split at h
      · exact absurd h (by simp)
      · split at h
        · exact absurd h (by simp)
        · injection h with h2
          subst h2
          exact ⟨rfl, rfl, hA⟩

theorem binsPartition_error (partitioned : List String) (hp : partitioned ≠ []) :
    binsPartition [] partitioned
      = Except.error "you must specify an ordered_param for a binned model" := by
  cases partitioned with
  | nil => exact absurd rfl hp
  | cons a l => rfl

/-- Claim C8: constructing a model that declares any bin-partitioned
parameter without designating an ordered parameter raises during
construction: `mkModel` returns an error and no model object is produced. -/
theorem C8_binned_needs_ordered (ms : ModelSpec)
    (h1 : ms.ordered_param = []) (h2 : ms.partitioned_params ≠ []) :
    exOk (mkModel ms) = false := by
  rw [mkModel]
  split
  · rfl
  · rename_i preds hA
    split
    · rfl
    · rename_i u hC
      split
      · rfl
      · rename_i part hB
        rw [h1, binsPartition_error ms.partitioned_params h2] at hB
        exact absurd hB (by simp)

def wSpecBinned : ModelSpec :=
  ModelSpec.mk [['a'], ['c']] (isInstantaneous ['-'] true) [] false [] ["kappa"]

/-- Witness for C8 at a concrete model specification with
`partitioned_params = ["kappa"]` and no ordered parameter. -/
theorem C8_binned_needs_ordered_witness :
    wSpecBinned.ordered_param = [] ∧ wSpecBinned.partitioned_params ≠ []
    ∧ exOk (mkModel wSpecBinned) = false :=
  ⟨rfl, by decide, C8_binned_needs_ordered wSpecBinned rfl (by decide)⟩

def wModelSpec : ModelSpec :=
  ModelSpec.mk [['a'], ['c']] (isInstantaneous ['-'] true)
    [("beta", fun _ _ => true)] false [] []

def wModel : SubstModel :=
  match mkModel wModelSpec with
  | Except.ok m => m
  | Except.error _ => SubstModel.mk 0 (fun _ _ => false) [] []

def wPred : String × (Nat → Nat → Bool) := wModel.preds.getD 0 ("", fun _ _ => false)

/-- Claim C9: invariant of every constructed model: every predicate mask
built by the predicate adaptation is true only at positions where the
instantaneous mask is true. -/
theorem C9_masks_within_inst (ms : ModelSpec) (m : SubstModel)
    (hok : mkModel ms = Except.ok m) :
    ∀ q ∈ m.preds, ∀ i j, q.2 i j = true → m.inst i j = true := by
  obtain ⟨hM, hinst, hpreds⟩ := mkModel_ok_inv ms m hok
  intro q hq i j hqij
  rw [hinst]
  exact adaptPredicates_sub ms.alphabet _ ms.predicates m.preds hpreds q hq i j hqij

/-- Witness for C9 at a concrete constructed model. -/
theorem C9_masks_within_inst_witness : wModel.inst 0 1 = true :=
  C9_masks_within_inst wModelSpec wModel rfl wPred
    (by
      rw [show wModel.preds = [wPred] from rfl]
      exact List.mem_singleton.mpr rfl) 0 1 (by decide)

theorem diffsCount_self (x : Motif) : diffsCount x x = 0 := by
  induction x with
  | nil => rfl
  | cons a x ih =>
    rw [diffsCount, List.zip_cons_cons, List.countP_cons]
    simp only [bne_self_eq_false]
    rw [diffsCount] at ih
    simpa using ih

/-- Claim C6: the default instantaneous rule never relates a motif to
itself, and for every constructed model whose instantaneous rule is
irreflexive, `getMatrixParams` at cell (i,j) is exactly the alphabetically
sorted list of predicate names whose masks are true at (i,j), with every
diagonal cell empty. -/
theorem C6_getMatrixParams (gm : Motif) (li : Bool) :
    (∀ x, isInstantaneous gm li x x = false)
    ∧ ∀ (ms : ModelSpec) (m : SubstModel), mkModel ms = Except.ok m →
        (∀ a, ms.isInst a a = false) → ∀ i j,
        List.Sorted (fun a b : String => a ≤ b) (getMatrixParams m i j)
        ∧ (∀ nm, nm ∈ getMatrixParams m i j
            ↔ ∃ mask, (nm, mask) ∈ m.preds ∧ mask i j = true)
        ∧ getMatrixParams m i i = [] := by
  constructor
  · intro x
    simp [isInstantaneous, diffsCount_self]
  · intro ms m hok hrefl i j
    obtain ⟨hM, hinst, hpreds⟩ := mkModel_ok_inv ms m hok
    have hsub := adaptPredicates_sub ms.alphabet _ ms.predicates m.preds hpreds
    refine ⟨?_, ?_, ?_⟩
    · by_cases hij : m.inst i j = true
      · rw [getMatrixParams, if_pos hij]
        exact List.sorted_insertionSort _ _
      · rw [getMatrixParams, if_neg hij]
        exact List.sorted_nil
    · intro nm
      by_cases hij : m.inst i j = true
      · rw [getMatrixParams, if_pos hij]
        constructor
        · intro hmem
          have hmem2 : nm ∈ (m.preds.filter (fun p => p.2 i j)).map Prod.fst :=
            ((List.perm_insertionSort _ _).mem_iff).mp hmem
          rw [List.mem_map] at hmem2
          obtain ⟨p, hp, hnm⟩ := hmem2
          rw [List.mem_filter] at hp
          refine ⟨p.2, ?_, hp.2⟩
          rw [← hnm, Prod.mk.eta]
          exact hp.1
        · intro hex
          obtain ⟨mask, hmem, hmask⟩ := hex
          apply ((List.perm_insertionSort _ _).mem_iff).mpr
          rw [List.mem_map]
          exact ⟨(nm, mask), List.mem_filter.mpr ⟨hmem, hmask⟩, rfl⟩
      · rw [getMatrixParams, if_neg hij]
        simp only [List.not_mem_nil, false_iff]
        intro hex
        obtain ⟨mask, hmem, hmask⟩ := hex
        exact hij (by rw [hinst]; exact hsub (nm, mask) hmem i j hmask)
    · have hdiag : m.inst i i = false := by
        rw [hinst, predicate2matrix]
        simp [hrefl]
      rw [getMatrixParams, if_neg (by simp [hdiag])]

/-- Witness for C6 at a concrete constructed model and cell (0,1). -/
theorem C6_getMatrixParams_witness :
    List.Sorted (fun a b : String => a ≤ b) (getMatrixParams wModel 0 1)
    ∧ (∀ nm, nm ∈ getMatrixParams wModel 0 1
        ↔ ∃ mask, (nm, mask) ∈ wModel.preds ∧ mask 0 1 = true)
    ∧ getMatrixParams wModel 0 0 = [] :=
  (C6_getMatrixParams ['-'] true).2 wModelSpec wModel rfl
    (fun a => (C6_getMatrixParams ['-'] true).1 a) 0 1

theorem store_read_append (l : List (List (Motif × ℚ))) (c : List (Motif × ℚ))
    (r : Nat) (hr : r < l.length) : (l ++ [c]).getD r [] = l.getD r [] := by
  rw [List.getD_eq_getElem?_getD, List.getD_eq_getElem?_getD, List.getElem?_append_left hr]

/-- Claim C10: `getMotifProbs` returns a fresh copy of the stored
motif-probability dictionary: the returned reference is distinct from the
stored one, overwriting the returned dictionary leaves the stored one
unchanged, the contents of the copy equal the stored contents, and two
successive calls with no intervening change return equal dictionaries. -/
theorem C10_getMotifProbs_copy (h : Store) (r : Nat) (hr : r < h.dicts.length) :
    (getMotifProbs h r).1 ≠ r
    ∧ (∀ d2, ((getMotifProbs h r).2.write (getMotifProbs h r).1 d2).read r = h.read r)
    ∧ (getMotifProbs h r).2.read (getMotifProbs h r).1 = h.read r
    ∧ (getMotifProbs (getMotifProbs h r).2 r).2.read (getMotifProbs h r).1
        = (getMotifProbs (getMotifProbs h r).2 r).2.read
            (getMotifProbs (getMotifProbs h r).2 r).1 := by
  refine ⟨?_, ?_, ?_, ?_⟩
  · show h.dicts.length ≠ r
    omega
  · intro d2
    show ((h.dicts ++ [h.read r]).set h.dicts.length d2).getD r [] = h.dicts.getD r []
    rw [List.getD_eq_getElem?_getD, List.getElem?_set_ne (by omega),
      List.getElem?_append_left hr, ← List.getD_eq_getElem?_getD]
  · show (h.dicts ++ [h.read r]).getD h.dicts.length [] = h.read r
    rw [List.getD_eq_getElem?_getD, List.getElem?_concat_length]
    rfl
  · have hc : Store.read (Store.mk (h.dicts ++ [h.read r])) r = h.read r := by
      show (h.dicts ++ [h.read r]).getD r [] = h.dicts.getD r []
      exact store_read_append h.dicts (h.read r) r hr
    show ((h.dicts ++ [h.read r]) ++ [Store.read (Store.mk (h.dicts ++ [h.read r])) r]).getD
          h.dicts.length []
        = ((h.dicts ++ [h.read r]) ++ [Store.read (Store.mk (h.dicts ++ [h.read r])) r]).getD
          (h.dicts ++ [h.read r]).length []
    rw [hc]
    have hL : ((h.dicts ++ [h.read r]) ++ [h.read r]).getD h.dicts.length [] = h.read r := by
      rw [List.getD_eq_getElem?_getD, List.getElem?_append_left
        (by rw [List.length_append]; simp), List.getElem?_concat_length]
      rfl
    have hR : ((h.dicts ++ [h.read r]) ++ [h.read r]).getD (h.dicts ++ [h.read r]).length []
        = h.read r := by
      rw [List.getD_eq_getElem?_getD, List.getElem?_concat_length]
      rfl
    rw [hL, hR]

/-- Witness for C10 at a concrete one-entry store. -/
theorem C10_getMotifProbs_copy_witness :
    (getMotifProbs (Store.mk [[(['a'], (1 : ℚ))]]) 0).1 ≠ 0
    ∧ (∀ d2, ((getMotifProbs (Store.mk [[(['a'], (1 : ℚ))]]) 0).2.write
          (getMotifProbs (Store.mk [[(['a'], (1 : ℚ))]]) 0).1 d2).read 0
        = (Store.mk [[(['a'], (1 : ℚ))]]).read 0)
    ∧ (getMotifProbs (Store.mk [[(['a'], (1 : ℚ))]]) 0).2.read
          (getMotifProbs (Store.mk [[(['a'], (1 : ℚ))]]) 0).1
        = (Store.mk [[(['a'], (1 : ℚ))]]).read 0
    ∧ (getMotifProbs (getMotifProbs (Store.mk [[(['a'], (1 : ℚ))]]) 0).2 0).2.read
          (getMotifProbs (Store.mk [[(['a'], (1 : ℚ))]]) 0).1
        = (getMotifProbs (getMotifProbs (Store.mk [[(['a'], (1 : ℚ))]]) 0).2 0).2.read
            (getMotifProbs (getMotifProbs (Store.mk [[(['a'], (1 : ℚ))]]) 0).2 0).1 :=
  C10_getMotifProbs_copy (Store.mk [[(['a'], (1 : ℚ))]]) 0 (by simp)

theorem sideOK_gapIndex (G X Y : Char) (hXY : X ≠ Y) (hG : X = G ∨ Y = G) :
    sideOK G X Y (gapIndex G X) := by
  by_cases hx : X = G
  · exact Or.inl ⟨by simp [gapIndex, hx], hx⟩
  · have hy : Y = G := hG.resolve_left hx
    exact Or.inr ⟨by simp [gapIndex, hx], hx, hy⟩

theorem gapIndex_of_sideOK (G X Y : Char) (str : Nat) (h : sideOK G X Y str) :
    gapIndex G X = str := by
  rcases h with ⟨h0, hx⟩ | ⟨h1, hx, _⟩
  · simp [gapIndex, hx, h0]
  · simp [gapIndex, hx, h1]

theorem sideOK_gap (G X Y : Char) (str : Nat) (h : sideOK G X Y str) : X = G ∨ Y = G := by
  rcases h with ⟨_, hx⟩ | ⟨_, _, hy⟩
  · exact Or.inl hx
  · exact Or.inr hy

theorem indelLoop_closed (gm : Motif) (rest : List (Char × Char)) (i a e strand : Nat) :
    indelLoop gm rest i (some a) (some e) (some strand) = true ↔ ∀ p ∈ rest, p.1 = p.2 := by
  induction rest generalizing i e with
  | nil => simp [indelLoop]
  | cons q rest ih =>
    obtain ⟨X, Y⟩ := q
    by_cases hXY : X = Y
    · simp only [indelLoop, if_pos hXY]
      rw [ih (i + 1) i]
      rw [List.forall_mem_cons]
      simp [hXY]
    · by_cases hg : X ≠ gm.getD i ' ' ∧ Y ≠ gm.getD i ' '
      · simp only [indelLoop, if_neg hXY, if_pos hg]
        simp [List.forall_mem_cons, hXY]
      · simp only [indelLoop, if_neg hXY, if_neg hg]
        simp [List.forall_mem_cons, hXY]

theorem indelLoop_open (gm : Motif) (rest : List (Char × Char)) (i a strand : Nat) :
    indelLoop gm rest i (some a) none (some strand) = true ↔
      ∃ k, k ≤ rest.length ∧
        (∀ j p, j < k → rest[j]? = some p →
          p.1 ≠ p.2 ∧ sideOK (gm.getD (i + j) ' ') p.1 p.2 strand) ∧
        (∀ j p, k ≤ j → rest[j]? = some p → p.1 = p.2) := by
  induction rest generalizing i with
  | nil =>
    constructor
    · intro _
      exact ⟨0, Nat.le_refl 0, fun j p hj hp => absurd hp (by simp),
        fun j p hj hp => absurd hp (by simp)⟩
    · intro _; rfl
  | cons q rest ih =>
    obtain ⟨X, Y⟩ := q
    by_cases hXY : X = Y
    · simp only [indelLoop, if_pos hXY]
      rw [indelLoop_closed]
      constructor
      · intro hall
        refine ⟨0, by simp, fun j p hj hp => absurd hj (by omega), ?_⟩
        intro j p hj hp
        cases j with
        | zero =>
          rw [List.getElem?_cons_zero] at hp
          injection hp with hp2
          subst hp2
          exact hXY
        | succ j =>
          rw [List.getElem?_cons_succ] at hp
          obtain ⟨hlt, rfl⟩ := List.getElem?_eq_some.mp hp
          exact hall _ (List.getElem_mem hlt)
      · rintro ⟨k, hk, hrun, heq⟩ p hp
        cases k with
        | succ k => exact absurd (hrun 0 (X, Y) (by omega) (by simp)).1 (by simpa using hXY)
        | zero =>
          obtain ⟨j, hjlt, rfl⟩ := List.getElem_of_mem hp
          exact heq (j + 1) _ (by omega)
            (by rw [List.getElem?_cons_succ]; exact List.getElem?_eq_some.mpr ⟨hjlt, rfl⟩)
    · by_cases hg : X ≠ gm.getD i ' ' ∧ Y ≠ gm.getD i ' '
      · simp only [indelLoop, if_neg hXY, if_pos hg]
        constructor
        · intro hfalse; exact absurd hfalse (by simp)
        · rintro ⟨k, hk, hrun, heq⟩
          exfalso
          cases k with
          | zero => exact hXY (heq 0 (X, Y) (Nat.le_refl 0) (by simp))
          | succ k =>
            have hs := (hrun 0 (X, Y) (by omega) (by simp)).2
            rcases sideOK_gap _ _ _ _ hs with h | h
            · exact hg.1 (by simpa using h)
            · exact hg.2 (by simpa using h)
      · have hG : X = gm.getD i ' ' ∨ Y = gm.getD i ' ' := by tauto
        by_cases hstr : gapIndex (gm.getD i ' ') X = strand
        · simp only [indelLoop, if_neg hXY, if_neg hg, Option.isSome_none,
            Bool.false_eq_true, false_or, ne_eq, Option.some.injEq, hstr,
            not_true_eq_false, if_false]
          rw [ih (i + 1)]
          constructor
          · rintro ⟨k, hk, hrun, heq⟩
            refine ⟨k + 1, by simpa using hk, ?_, ?_⟩
            · intro j p hj hp
              cases j with
              | zero =>
                rw [List.getElem?_cons_zero] at hp
                injection hp with hp2
                subst hp2
                refine ⟨hXY, ?_⟩
                rw [show i + 0 = i from rfl, ← hstr]
                exact sideOK_gapIndex _ _ _ hXY hG
              | succ j =>
                rw [List.getElem?_cons_succ] at hp
                have hr := hrun j p (by omega) hp
                refine ⟨hr.1, ?_⟩
                have harith : i + (j + 1) = i + 1 + j := by omega
                rw [harith]
                exact hr.2
            · intro j p hj hp
              cases j with
              | zero => omega
              | succ j =>
                rw [List.getElem?_cons_succ] at hp
                exact heq j p (by omega) hp
          · rintro ⟨k, hk, hrun, heq⟩
            cases k with
            | zero => exact absurd (heq 0 (X, Y) (Nat.le_refl 0) (by simp)) hXY
            | succ k =>
              refine ⟨k, by simpa using hk, ?_, ?_⟩
              · intro j p hj hp
                have hr := hrun (j + 1) p (by omega)
                  (by rw [List.getElem?_cons_succ]; exact hp)
                refine ⟨hr.1, ?_⟩
                have harith : i + 1 + j = i + (j + 1) := by omega
                rw [harith]
                exact hr.2
              · intro j p hj hp
                exact heq (j + 1) p (by omega) (by rw [List.getElem?_cons_succ]; exact hp)
        · simp only [indelLoop, if_neg hXY, if_neg hg, Option.isSome_none,
            Bool.false_eq_true, false_or, ne_eq, Option.some.injEq]
          rw [if_pos (by simpa using hstr)]
          constructor
          · intro hfalse; exact absurd hfalse (by simp)
          · rintro ⟨k, hk, hrun, heq⟩
            exfalso
            cases k with
            | zero => exact hXY (heq 0 (X, Y) (Nat.le_refl 0) (by simp))
            | succ k =>
              have hs := (hrun 0 (X, Y) (by omega) (by simp)).2
              have hgi := gapIndex_of_sideOK _ _ _ _ hs
              rw [show i + 0 = i from rfl] at hgi
              exact hstr hgi

theorem indelLoop_init (gm : Motif) (rest : List (Char × Char)) (i : Nat) :
    indelLoop gm rest i none none none = true ↔ RunSpec gm i rest := by
  induction rest generalizing i with
  | nil =>
    constructor
    · intro _
      exact ⟨0, 0, 0, by simp, fun j p hp => absurd hp (by simp),
        fun j p hp => absurd hp (by simp)⟩
    · intro _; rfl
  | cons q rest ih =>
    obtain ⟨X, Y⟩ := q
    by_cases hXY : X = Y
    · simp only [indelLoop, if_pos hXY]
      rw [ih (i + 1)]
      constructor
      · rintro ⟨str, a, n, hb, hdiff, hside⟩
        refine ⟨str, a + 1, n, by simp only [List.length_cons]; omega, ?_, ?_⟩
        · intro j p hp
          cases j with
          | zero =>
            rw [List.getElem?_cons_zero] at hp
            injection hp with hp2
            subst hp2
            constructor
            · intro hne; exact absurd hXY hne
            · intro hj; omega
          | succ j =>
            rw [List.getElem?_cons_succ] at hp
            rw [hdiff j p hp]
            omega
        · intro j p hp hj1 hj2
          cases j with
          | zero => omega
          | succ j =>
            rw [List.getElem?_cons_succ] at hp
            have harith : i + (j + 1) = i + 1 + j := by omega
            rw [harith]
            exact hside j p hp (by omega) (by omega)
      · rintro ⟨str, a, n, hb, hdiff, hside⟩
        by_cases hn : n = 0
        · subst hn
          refine ⟨str, 0, 0, by simp, ?_, ?_⟩
          · intro j p hp
            have := hdiff (j + 1) p (by rw [List.getElem?_cons_succ]; exact hp)
            rw [this]
            omega
          · intro j p hp hj1 hj2
            omega
        · have ha : 1 ≤ a := by
            by_contra hc
            have ha0 : a = 0 := by omega
            have := (hdiff 0 (X, Y) (by simp)).mpr (by omega)
            exact this hXY
          refine ⟨str, a - 1, n, by simp at hb; omega, ?_, ?_⟩
          · intro j p hp
            have := hdiff (j + 1) p (by rw [List.getElem?_cons_succ]; exact hp)
            rw [this]
            omega
          · intro j p hp hj1 hj2
            have harith : i + (j + 1) = i + 1 + j := by omega
            rw [← harith]
            exact hside (j + 1) p (by rw [List.getElem?_cons_succ]; exact hp)
              (by omega) (by omega)
    · by_cases hg : X ≠ gm.getD i ' ' ∧ Y ≠ gm.getD i ' '
      · simp only [indelLoop, if_neg hXY, if_pos hg]
        constructor
        · intro hfalse; exact absurd hfalse (by simp)
        · rintro ⟨str, a, n, hb, hdiff, hside⟩
          exfalso
          have h0 : a ≤ 0 ∧ 0 < a + n := (hdiff 0 (X, Y) (by simp)).mp hXY
          have hs := hside 0 (X, Y) (by simp) (by omega) (by omega)
          rcases sideOK_gap _ _ _ _ hs with h | h
          · exact hg.1 (by simpa using h)
          · exact hg.2 (by simpa using h)
      · have hG : X = gm.getD i ' ' ∨ Y = gm.getD i ' ' := by tauto
        simp only [indelLoop, if_neg hXY, if_neg hg]
        rw [indelLoop_open gm rest (i + 1) i (gapIndex (gm.getD i ' ') X)]
        constructor
        · rintro ⟨k, hk, hrun, heq⟩
          refine ⟨gapIndex (gm.getD i ' ') X, 0, k + 1, by simpa using hk, ?_, ?_⟩
          · intro j p hp
            cases j with
            | zero =>
              rw [List.getElem?_cons_zero] at hp
              injection hp with hp2
              subst hp2
              constructor
              · intro _; omega
              · intro _; exact hXY
            | succ j =>
              rw [List.getElem?_cons_succ] at hp
              by_cases hjk : j < k
              · have := (hrun j p hjk hp).1
                constructor
                · intro _; omega
                · intro _; exact this
              · have := heq j p (by omega) hp
                constructor
                · intro hne; exact absurd this hne
                · intro hj; omega
          · intro j p hp hj1 hj2
            cases j with
            | zero =>
              rw [List.getElem?_cons_zero] at hp
              injection hp with hp2
              subst hp2
              rw [show i + 0 = i from rfl]
              exact sideOK_gapIndex _ _ _ hXY hG
            | succ j =>
              rw [List.getElem?_cons_succ] at hp
              have harith : i + (j + 1) = i + 1 + j := by omega
              rw [harith]
              exact (hrun j p (by omega) hp).2
        · rintro ⟨str, a, n, hb, hdiff, hside⟩
          have h0 : a ≤ 0 ∧ 0 < a + n := (hdiff 0 (X, Y) (by simp)).mp hXY
          have hstr : gapIndex (gm.getD i ' ') X = str := by
            have hs := hside 0 (X, Y) (by simp) (by omega) (by omega)
            have := gapIndex_of_sideOK _ _ _ _ hs
            rw [show i + 0 = i from rfl] at this
            exact this
          refine ⟨n - 1, by simp at hb; omega, ?_, ?_⟩
          · intro j p hj hp
            have hd := (hdiff (j + 1) p (by rw [List.getElem?_cons_succ]; exact hp)).mpr
              (by omega)
            refine ⟨hd, ?_⟩
            have hs := hside (j + 1) p (by rw [List.getElem?_cons_succ]; exact hp)
              (by omega) (by omega)
            have harith : i + (j + 1) = i + 1 + j := by omega
            rw [harith] at hs
            rw [hstr]
            exact hs
          · intro j p hj hp
            by_contra hne
            have := (hdiff (j + 1) p (by rw [List.getElem?_cons_succ]; exact hp)).mp hne
            omega

theorem ne_of_diffsCount_pos (x y : Motif) (h : 0 < diffsCount x y) : x ≠ y := by
  intro heq
  subst heq
  rw [diffsCount_self] at h
  exact Nat.lt_irrefl 0 h

/-- Claim C7: under the default rule with long indels enabled,
`isInstantaneous` is true exactly when the motifs differ in one position, or
differ in more than one position with the differing positions forming a
single contiguous gap region whose gap characters all lie on the same one
of the two motifs (`RunSpec`); in particular, for DNA with gap "-",
("a","-") and ("a","c") are instantaneous and ("a","a") is not. -/
theorem C7_isInstantaneous_iff :
    (∀ gm x y, isInstantaneous gm true x y = true ↔
      (diffsCount x y = 1 ∨ (1 < diffsCount x y ∧ RunSpec gm 0 (x.zip y))))
    ∧ isInstantaneous ['-'] true ['a'] ['-'] = true
    ∧ isInstantaneous ['-'] true ['a'] ['c'] = true
    ∧ isInstantaneous ['-'] true ['a'] ['a'] = false := by
  refine ⟨?_, rfl, rfl, rfl⟩
  intro gm x y
  rw [isInstantaneous]
  constructor
  · intro h
    rw [Bool.or_eq_true] at h
    rcases h with h | h
    · exact Or.inl (by simpa using h)
    · right
      rw [Bool.and_eq_true, Bool.and_eq_true] at h
      obtain ⟨⟨hlt, _⟩, hindel⟩ := h
      have hlt2 : 1 < diffsCount x y := by simpa using hlt
      refine ⟨hlt2, ?_⟩
      rw [isAnyIndel] at hindel
      have hne : x ≠ y := ne_of_diffsCount_pos x y (by omega)
      rw [if_neg hne] at hindel
      exact (indelLoop_init gm (x.zip y) 0).mp hindel
  · intro h
    rw [Bool.or_eq_true]
    rcases h with h | h
    · exact Or.inl (by simpa using h)
    · obtain ⟨hlt, hrs⟩ := h
      right
      rw [Bool.and_eq_true, Bool.and_eq_true]
      refine ⟨⟨by simpa using hlt, rfl⟩, ?_⟩
      rw [isAnyIndel]
      have hne : x ≠ y := ne_of_diffsCount_pos x y (by omega)
      rw [if_neg hne]
      exact (indelLoop_init gm (x.zip y) 0).mpr hrs
